/-
Verification of the alloy runtime's relabel data path, regex log stage and
component introspection against their natural-language specification.

The Go sources are embedded shallowly:

* `prometheus/relabel/relabel.go` — the `prometheus.relabel` component.
  Label sets are association lists, the LRU cache is a most-recent-first
  list of key/value pairs, the global label store is the list of label sets
  it has interned (a set's GlobalRefID is its index).  Go slices are
  mutable, so the hot path is modelled against a `World` holding the live
  label buffers: `labels.Labels` arguments are buffer indices, `Copy`
  allocates a fresh buffer, and the Prometheus rule engine
  (`relabel.Process`, an external collaborator) is an abstract `ProcFn`
  whose `after` field is the content it leaves in the slice handed to it.
  Sample values are IEEE-754 bit patterns (`Nat`), which is all
  `value.IsStaleNaN` inspects.
* `runtime/component_provider.go` — `GetComponent`, `ListComponents` and
  `getComponentDetail` over a graph of typed nodes.
* the regex stage of `loki/process/stages` is present in the repository
  only through its tests, so its config validation and `Process` method
  are modelled from the specification (see the doc comments).
-/
import Mathlib

namespace Alloy

/-- A label set: the key/value pairs of `labels.Labels`. -/
abbrev Labels := List (String × String)

/-- A float64 sample value, as its IEEE-754 bit pattern. -/
abbrev FVal := Nat

/-- `value.StaleNaN`: the bit pattern Prometheus reserves for staleness markers. -/
def staleNaN : FVal := 0x7ff0000000000002

/-- `value.IsStaleNaN(v)`: the value is the staleness marker. -/
def isStaleNaN (v : FVal) : Bool := v = staleNaN

/-! ### Association lists

Go maps (`extracted map[string]interface{}`, `model.LabelSet`) and the LRU
cache's key/value store are modelled as association lists with
first-match lookup; an update removes the key and prepends the new pair. -/

/-- First-match lookup in an association list. -/
def lookupKV {κ α : Type} [DecidableEq κ] : List (κ × α) → κ → Option α
  | [], _ => none
  | p :: rest, k => if p.1 = k then some p.2 else lookupKV rest k

/-- Remove every pair with the given key. -/
def eraseKV {κ α : Type} [DecidableEq κ] : List (κ × α) → κ → List (κ × α)
  | [], _ => []
  | p :: rest, k => if p.1 = k then eraseKV rest k else p :: eraseKV rest k

/-- Map-style assignment `m[k] = v`. -/
def upsertKV {κ α : Type} [DecidableEq κ] (m : List (κ × α)) (k : κ) (v : α) :
    List (κ × α) :=
  (k, v) :: eraseKV m k

theorem lookupKV_some_mem {κ α : Type} [DecidableEq κ]
    {m : List (κ × α)} {k : κ} {v : α} : lookupKV m k = some v → (k, v) ∈ m := by
  induction m with
  | nil => intro h; simp [lookupKV] at h
  | cons p rest ih =>
    intro h
    obtain ⟨k0, v0⟩ := p
    by_cases hp : k0 = k
    · simp [lookupKV, hp] at h
      subst hp
      subst h
      exact List.mem_cons_self _ _
    · simp [lookupKV, hp] at h
      exact List.mem_cons_of_mem _ (ih h)

theorem mem_eraseKV {κ α : Type} [DecidableEq κ]
    {m : List (κ × α)} {k : κ} {p : κ × α} : p ∈ eraseKV m k →
    p ∈ m ∧ ¬ p.1 = k := by
  induction m with
  | nil => intro h; simp [eraseKV] at h
  | cons q rest ih =>
    intro h
    by_cases hq : q.1 = k
    · rw [eraseKV, if_pos hq] at h
      exact ⟨List.mem_cons_of_mem _ (ih h).1, (ih h).2⟩
    · rw [eraseKV, if_neg hq] at h
      rcases List.mem_cons.mp h with h | h
      · subst h
        exact ⟨List.mem_cons_self _ _, hq⟩
      · exact ⟨List.mem_cons_of_mem _ (ih h).1, (ih h).2⟩

theorem lookupKV_eraseKV_self {κ α : Type} [DecidableEq κ]
    (m : List (κ × α)) (k : κ) : lookupKV (eraseKV m k) k = none := by
  induction m with
  | nil => simp [eraseKV, lookupKV]
  | cons q rest ih =>
    by_cases hq : q.1 = k
    · simp [eraseKV, hq, ih]
    · simp [eraseKV, hq, lookupKV, ih]

theorem lookupKV_eraseKV_ne {κ α : Type} [DecidableEq κ]
    (m : List (κ × α)) {k k' : κ} (h : ¬ k' = k) :
    lookupKV (eraseKV m k) k' = lookupKV m k' := by
  have hkk : ¬ k = k' := fun e => h e.symm
  induction m with
  | nil => simp [eraseKV]
  | cons q rest ih =>
    by_cases hq : q.1 = k
    · simp [eraseKV, hq, lookupKV, hkk, ih]
    · by_cases hq' : q.1 = k'
      · simp [eraseKV, hq, lookupKV, hq', h]
      · simp [eraseKV, hq, lookupKV, hq', ih]

theorem lookupKV_upsertKV_self {κ α : Type} [DecidableEq κ]
    (m : List (κ × α)) (k : κ) (v : α) : lookupKV (upsertKV m k v) k = some v := by
  simp [upsertKV, lookupKV]

theorem lookupKV_upsertKV_ne {κ α : Type} [DecidableEq κ]
    (m : List (κ × α)) {k k' : κ} (v : α) (h : ¬ k' = k) :
    lookupKV (upsertKV m k v) k' = lookupKV m k' := by
  have : ¬ k = k' := fun hk => h hk.symm
  simp [upsertKV, lookupKV, this, lookupKV_eraseKV_ne m h]

/-! ### The global label store

`labelstore.LabelStore.GetOrAddGlobalRefID` interns canonical label sets and
hands out process-unique 64-bit ids.  The store is the list of interned
sets in allocation order; a set's GlobalRefID is its index. -/

/-- Index of the first occurrence of a label set in the store. -/
def storeFind : List Labels → Labels → Option Nat
  | [], _ => none
  | x :: xs, l => if x = l then some 0 else (storeFind xs l).map (· + 1)

/-- `GetOrAddGlobalRefID`: the id of the set, interning it first if new. -/
def getOrAddGlobalRefID (ls : List Labels) (l : Labels) : Nat × List Labels :=
  match storeFind ls l with
  | some i => (i, ls)
  | none => (ls.length, ls ++ [l])

theorem storeFind_some_getElem {ls : List Labels} {l : Labels} {i : Nat} :
    storeFind ls l = some i → ls[i]? = some l := by
  induction ls generalizing i with
  | nil => intro h; simp [storeFind] at h
  | cons x xs ih =>
    intro h
    by_cases hx : x = l
    · simp [storeFind, hx] at h
      subst h
      simp [hx]
    · simp only [storeFind, if_neg hx, Option.map_eq_some'] at h
      obtain ⟨j, hj, hji⟩ := h
      subst hji
      simpa using ih hj

theorem storeFind_none_not_mem {ls : List Labels} {l : Labels} :
    storeFind ls l = none → l ∉ ls := by
  induction ls with
  | nil => intro _ h; simp at h
  | cons x xs ih =>
    intro h hmem
    by_cases hx : x = l
    · simp [storeFind, hx] at h
    · simp only [storeFind, if_neg hx, Option.map_eq_none'] at h
      rcases List.mem_cons.mp hmem with hl | hl
      · exact hx hl.symm
      · exact ih h hl

theorem storeFind_append_left {ls : List Labels} {l : Labels} {i : Nat} :
    storeFind ls l = some i → ∀ t : List Labels, storeFind (ls ++ t) l = some i := by
  induction ls generalizing i with
  | nil => intro h; simp [storeFind] at h
  | cons x xs ih =>
    intro h t
    by_cases hx : x = l
    · simp [storeFind, hx] at h ⊢
      exact h
    · simp only [storeFind, if_neg hx, Option.map_eq_some'] at h
      obtain ⟨j, hj, hji⟩ := h
      subst hji
      simp only [List.cons_append, storeFind, if_neg hx, List.append_eq, ih hj t,
        Option.map_some']

theorem storeFind_append_self {ls : List Labels} {l : Labels} :
    storeFind ls l = none → storeFind (ls ++ [l]) l = some ls.length := by
  induction ls with
  | nil => intro _; simp [storeFind]
  | cons x xs ih =>
    intro h
    by_cases hx : x = l
    · simp [storeFind, hx] at h
    · simp only [storeFind, if_neg hx, Option.map_eq_none'] at h
      simp only [List.cons_append, storeFind, if_neg hx, List.append_eq, ih h,
        Option.map_some', List.length_cons]

/-- The store only ever grows by appending, so ids are stable. -/
def storeExtends (ls ls' : List Labels) : Prop := ∃ t, ls' = ls ++ t

theorem storeExtends_refl (ls : List Labels) : storeExtends ls ls := ⟨[], by simp⟩

theorem storeExtends_trans {a b c : List Labels} :
    storeExtends a b → storeExtends b c → storeExtends a c := by
  rintro ⟨t, rfl⟩ ⟨u, rfl⟩
  exact ⟨t ++ u, by simp⟩

theorem storeExtends_getElem {ls ls' : List Labels} {i : Nat} {l : Labels} :
    storeExtends ls ls' → ls[i]? = some l → ls'[i]? = some l := by
  rintro ⟨t, rfl⟩ h
  have hi : i < ls.length := by
    by_contra hge
    rw [List.getElem?_eq_none (Nat.le_of_not_lt hge)] at h
    exact Option.noConfusion h
  rw [List.getElem?_append, if_pos hi]
  exact h

theorem storeExtends_storeFind {ls ls' : List Labels} {l : Labels} {i : Nat} :
    storeExtends ls ls' → storeFind ls l = some i → storeFind ls' l = some i := by
  rintro ⟨t, rfl⟩ h
  exact storeFind_append_left h t

theorem getOrAddGlobalRefID_extends (ls : List Labels) (l : Labels) :
    storeExtends ls (getOrAddGlobalRefID ls l).2 := by
  rw [getOrAddGlobalRefID]
  cases h : storeFind ls l with
  | none => exact ⟨[l], rfl⟩
  | some i => exact storeExtends_refl ls

theorem getOrAddGlobalRefID_find (ls : List Labels) (l : Labels) :
    storeFind (getOrAddGlobalRefID ls l).2 l = some (getOrAddGlobalRefID ls l).1 := by
  rw [getOrAddGlobalRefID]
  cases h : storeFind ls l with
  | none => exact storeFind_append_self h
  | some i => exact h

theorem getOrAddGlobalRefID_getElem (ls : List Labels) (l : Labels) :
    (getOrAddGlobalRefID ls l).2[(getOrAddGlobalRefID ls l).1]? = some l :=
  storeFind_some_getElem (getOrAddGlobalRefID_find ls l)

theorem getOrAddGlobalRefID_nodup {ls : List Labels} (l : Labels) :
    ls.Nodup → (getOrAddGlobalRefID ls l).2.Nodup := by
  intro hnd
  rw [getOrAddGlobalRefID]
  cases h : storeFind ls l with
  | none =>
    simpa [List.nodup_append] using ⟨hnd, storeFind_none_not_mem h⟩
  | some i => exact hnd

/-! ### The LRU cache

`hashicorp/golang-lru/v2` as the component uses it: `Get` refreshes an
entry's recency, `Add` inserts at the front and evicts the oldest entry
beyond the capacity, `Remove` drops a key.  The cache is the list of
entries, most recently used first.  A `nil` entry records a dropped
series, distinct from absence. -/

/-- `labelAndID`: cached output labels with their GlobalRefID. -/
structure LabelAndID where
  labels : Labels
  id : Nat
  deriving DecidableEq

/-- A cache value: `none` for a dropped series. -/
abbrev CEntry := Option LabelAndID

/-- The cache: key/value pairs, most recently used first. -/
abbrev Cache := List (Nat × CEntry)

/-- `lru.Cache.Get`: the entry if present, and the cache with its recency refreshed. -/
def lruGet (c : Cache) (k : Nat) : Option CEntry × Cache :=
  match lookupKV c k with
  | none => (none, c)
  | some v => (some v, (k, v) :: eraseKV c k)

/-- `lru.Cache.Add`: insert at the front, evicting the oldest entry over capacity. -/
def lruAdd (cap : Nat) (c : Cache) (k : Nat) (v : CEntry) : Cache :=
  let c' := (k, v) :: eraseKV c k
  if cap < c'.length then c'.dropLast else c'

/-- `lru.Cache.Remove`. -/
def lruRemove (c : Cache) (k : Nat) : Cache := eraseKV c k

theorem lruGet_fst_mem {c : Cache} {k : Nat} {v : CEntry} :
    (lruGet c k).1 = some v → (k, v) ∈ c := by
  intro h
  cases hl : lookupKV c k with
  | none => simp [lruGet, hl] at h
  | some w =>
    have hw : w = v := by simpa [lruGet, hl] using h
    exact hw ▸ lookupKV_some_mem hl

theorem mem_lruGet_snd {c : Cache} {k : Nat} {p : Nat × CEntry} :
    p ∈ (lruGet c k).2 → p ∈ c := by
  intro h
  cases hl : lookupKV c k with
  | none => simpa [lruGet, hl] using h
  | some w =>
    simp only [lruGet, hl] at h
    rcases List.mem_cons.mp h with h | h
    · exact h ▸ lookupKV_some_mem hl
    · exact (mem_eraseKV h).1

theorem mem_lruAdd {cap : Nat} {c : Cache} {k : Nat} {v : CEntry} {p : Nat × CEntry} :
    p ∈ lruAdd cap c k v → p = (k, v) ∨ p ∈ c := by
  intro h
  rw [lruAdd] at h
  by_cases hlen : cap < ((k, v) :: eraseKV c k).length
  · simp only [if_pos hlen] at h
    have hmem : p ∈ (k, v) :: eraseKV c k := List.dropLast_sublist _ |>.subset h
    rcases List.mem_cons.mp hmem with h' | h'
    · exact Or.inl h'
    · exact Or.inr (mem_eraseKV h').1
  · simp only [if_neg hlen] at h
    rcases List.mem_cons.mp h with h' | h'
    · exact Or.inl h'
    · exact Or.inr (mem_eraseKV h').1

theorem mem_lruRemove {c : Cache} {k : Nat} {p : Nat × CEntry} :
    p ∈ lruRemove c k → p ∈ c :=
  fun h => (mem_eraseKV h).1

theorem lookupKV_lruRemove_self (c : Cache) (k : Nat) :
    lookupKV (lruRemove c k) k = none :=
  lookupKV_eraseKV_self c k

/-! ### Mutable label buffers

`labels.Labels` values reaching the component are Go slices: the data is
shared and mutable.  A `World` is the heap of live label buffers; an
incoming label set is an index into it, and `Labels.Copy` allocates a
fresh buffer with the same content. -/

/-- The heap of live label buffers. -/
structure World where
  buffers : List Labels
  deriving DecidableEq

/-- Content of buffer `i` (a dangling index reads as empty). -/
def bufGet : List Labels → Nat → Labels
  | [], _ => []
  | b :: _, 0 => b
  | _ :: bs, n + 1 => bufGet bs n

/-- Overwrite buffer `i` in place. -/
def bufSet : List Labels → Nat → Labels → List Labels
  | [], _, _ => []
  | _ :: bs, 0, x => x :: bs
  | b :: bs, n + 1, x => b :: bufSet bs n x

def World.read (w : World) (i : Nat) : Labels := bufGet w.buffers i

def World.write (w : World) (i : Nat) (l : Labels) : World := ⟨bufSet w.buffers i l⟩

/-- `Labels.Copy`: allocate a fresh buffer holding `l`. -/
def World.alloc (w : World) (l : Labels) : Nat × World :=
  (w.buffers.length, ⟨w.buffers ++ [l]⟩)

theorem bufGet_bufSet_ne {bs : List Labels} {i j : Nat} {x : Labels} :
    ¬ i = j → bufGet (bufSet bs j x) i = bufGet bs i := by
  induction bs generalizing i j with
  | nil => intro _; simp [bufSet]
  | cons b rest ih =>
    intro hij
    cases j with
    | zero =>
      cases i with
      | zero => exact absurd rfl hij
      | succ i' => simp [bufSet, bufGet]
    | succ j' =>
      cases i with
      | zero => simp [bufSet, bufGet]
      | succ i' =>
        simp only [bufSet, bufGet]
        exact ih (fun h => hij (by rw [h]))

theorem bufGet_append_lt {bs : List Labels} {i : Nat} (t : List Labels) :
    i < bs.length → bufGet (bs ++ t) i = bufGet bs i := by
  induction bs generalizing i with
  | nil => intro h; simp at h
  | cons b rest ih =>
    intro h
    cases i with
    | zero => simp [bufGet]
    | succ i' =>
      simp only [List.cons_append, bufGet]
      exact ih (Nat.lt_of_succ_lt_succ h)

theorem bufGet_append_self (bs : List Labels) (l : Labels) :
    bufGet (bs ++ [l]) bs.length = l := by
  induction bs with
  | nil => simp [bufGet]
  | cons b rest ih => simpa [bufGet] using ih

theorem World.read_alloc (w : World) (l : Labels) :
    (w.alloc l).2.read (w.alloc l).1 = l := by
  simp [World.alloc, World.read, bufGet_append_self]

/-! ### The rule engine

`relabel.Process(lbls, cfgs...)` is the Prometheus rule engine, an
external collaborator.  Its behaviour under a fixed rule list is a
function: `result` is what it returns (`none` when the series is
dropped), and `after` is the content it leaves in the slice handed to it
— the engine is allowed to scribble on its argument, which is why the
component must pass a copy. -/

structure ProcFn where
  result : Labels → Option Labels
  after : Labels → Labels

/-- Run `relabel.Process` on buffer `i`: `(relabelled, keep)` plus the
engine's effect on that buffer.  On drop Process returns empty labels. -/
def runProc (proc : ProcFn) (w : World) (i : Nat) : Labels × Bool × World :=
  let content := w.read i
  let ret := match proc.result content with
             | some l' => (l', true)
             | none => (([] : Labels), false)
  (ret.1, ret.2, w.write i (proc.after content))

/-- Applying the relabel rules to a fresh copy of `l`: the specification's
reference behaviour, against which the cached data path is compared. -/
def processFresh (proc : ProcFn) (l : Labels) : Labels :=
  match proc.result l with
  | some l' => l'
  | none => []

/-! ### The `prometheus.relabel` component -/

/-- `Component`: the state of one `prometheus.relabel` instance.  The
prometheus_client counters and gauges are plain naturals; `mrc` is the
converted rule list, `ls` the global label store, `cache` the LRU cache
with capacity `cap`. -/
structure Component where
  mrc : ProcFn
  ls : List Labels
  cache : Cache
  cap : Nat
  exited : Bool
  id : String
  forwardTo : List Nat
  metricsProcessed : Nat
  metricsOutgoing : Nat
  cacheHits : Nat
  cacheMisses : Nat
  cacheDeletes : Nat
  cacheSizeGauge : Nat

/-- `Component.getFromCache`. -/
def Component.getFromCache (c : Component) (id : Nat) : Option CEntry × Cache :=
  lruGet c.cache id

/-- `Component.deleteFromCache`: count a delete and remove the key. -/
def Component.deleteFromCache (c : Component) (id : Nat) : Component :=
  { c with cacheDeletes := c.cacheDeletes + 1, cache := lruRemove c.cache id }

/-- `Component.addToCache`: `nil` entry on drop, otherwise the output
labels with their freshly interned GlobalRefID. -/
def addToCache (ls : List Labels) (cache : Cache) (cap : Nat)
    (originalID : Nat) (lbls : Labels) (keep : Bool) : List Labels × Cache :=
  if keep then
    let r := getOrAddGlobalRefID ls lbls
    (r.2, lruAdd cap cache originalID (some ⟨lbls, r.1⟩))
  else
    (ls, lruAdd cap cache originalID none)

/-- `Component.relabel(val, lbls)`: the hot path.  `i` is the buffer
holding the caller's label set.  Returns the relabelled labels, the
component state after the call and the heap after the call.  (The
live-debugging publication at the end of the method is an outward-only
side effect and is not part of the state.) -/
def Component.relabel (c : Component) (val : FVal) (w : World) (i : Nat) :
    Labels × Component × World :=
  let lbls := w.read i
  let r := getOrAddGlobalRefID c.ls lbls
  match (Component.getFromCache c r.1).1 with
  | some entry =>
    let relabelled : Labels := match entry with
                               | some la => la.labels
                               | none => []
    let c1 : Component :=
      { c with ls := r.2, cache := (Component.getFromCache c r.1).2,
               metricsProcessed := c.metricsProcessed + 1,
               cacheHits := c.cacheHits + 1 }
    let c2 := if isStaleNaN val then c1.deleteFromCache r.1 else c1
    (relabelled, { c2 with cacheSizeGauge := c2.cache.length }, w)
  | none =>
    let a := w.alloc lbls
    let p := runProc c.mrc a.2 a.1
    let ac := addToCache r.2 (Component.getFromCache c r.1).2 c.cap r.1 p.1 p.2.1
    let c1 : Component :=
      { c with ls := ac.1, cache := ac.2,
               metricsProcessed := c.metricsProcessed + 1,
               cacheMisses := c.cacheMisses + 1 }
    let c2 := if isStaleNaN val then c1.deleteFromCache r.1 else c1
    (p.1, { c2 with cacheSizeGauge := c2.cache.length }, p.2.2)

/-- `Arguments` of the component. -/
structure Arguments where
  forwardTo : List Nat
  metricRelabelConfigs : ProcFn
  cacheSize : Int

/-- `relabel.Process` under an empty rule list keeps every series unchanged. -/
def emptyRules : ProcFn := { result := fun l => some l, after := fun l => l }

/-- `Arguments.SetToDefault`. -/
def Arguments.setToDefault : Arguments :=
  { forwardTo := [], metricRelabelConfigs := emptyRules, cacheSize := 100000 }

/-- `Arguments.Validate`: an error when the cache size is not positive. -/
def Arguments.validate (a : Arguments) : Option String :=
  if a.cacheSize ≤ 0 then
    some ("max_cache_size must be greater than 0 and is " ++ toString a.cacheSize)
  else none

/-- `Component.clearCache`: a fresh LRU cache of the given capacity. -/
def Component.clearCache (c : Component) (cacheSize : Int) : Component :=
  { c with cache := [], cap := cacheSize.toNat }

/-- `Component.Update`: clear the cache at the new capacity, install the
converted rules and the new forward list. -/
def Component.update (c : Component) (args : Arguments) : Component :=
  let c1 := c.clearCache args.cacheSize
  { c1 with mrc := args.metricRelabelConfigs, forwardTo := args.forwardTo }

/-- `Component.Run` blocks until the context is cancelled and then sets
`exited`; this is the state after it returns. -/
def Component.run (c : Component) : Component := { c with exited := true }

/-- A call into a downstream appender recorded by the fanout. -/
inductive Forwarded where
  | sample (lbls : Labels) (t : Int) (v : FVal)
  | exemplarOf (lbls : Labels) (e : Nat)
  | metadataOf (lbls : Labels) (m : Nat)
  | histogramOf (lbls : Labels) (t : Int) (h : Nat)
  deriving DecidableEq

/-- The next appender in the chain, one result function per hook point. -/
structure NextAppender where
  append : Labels → Int → FVal → Nat × Option String
  appendExemplar : Labels → Nat → Nat × Option String
  updateMetadata : Labels → Nat → Nat × Option String
  appendHistogram : Labels → Int → Nat → Nat × Option String

/-- The `WithAppendHook` closure installed by `New`: refuse after exit,
relabel, drop silently when nothing is left, otherwise count and forward. -/
def Component.appendHook (c : Component) (w : World) (i : Nat) (t : Int) (v : FVal)
    (next : NextAppender) :
    (Nat × Option String) × Option Forwarded × Component × World :=
  if c.exited then ((0, some (c.id ++ " has exited")), none, c, w)
  else
    let r := c.relabel v w i
    if r.1 = [] then ((0, none), none, r.2.1, r.2.2)
    else
      ((next.append r.1 t v), some (.sample r.1 t v),
       { r.2.1 with metricsOutgoing := r.2.1.metricsOutgoing + 1 }, r.2.2)

/-- The `WithExemplarHook` closure: the exemplar path relabels with value 0. -/
def Component.exemplarHook (c : Component) (w : World) (i : Nat) (e : Nat)
    (next : NextAppender) :
    (Nat × Option String) × Option Forwarded × Component × World :=
  if c.exited then ((0, some (c.id ++ " has exited")), none, c, w)
  else
    let r := c.relabel 0 w i
    if r.1 = [] then ((0, none), none, r.2.1, r.2.2)
    else ((next.appendExemplar r.1 e), some (.exemplarOf r.1 e), r.2.1, r.2.2)

/-- The `WithMetadataHook` closure. -/
def Component.metadataHook (c : Component) (w : World) (i : Nat) (m : Nat)
    (next : NextAppender) :
    (Nat × Option String) × Option Forwarded × Component × World :=
  if c.exited then ((0, some (c.id ++ " has exited")), none, c, w)
  else
    let r := c.relabel 0 w i
    if r.1 = [] then ((0, none), none, r.2.1, r.2.2)
    else ((next.updateMetadata r.1 m), some (.metadataOf r.1 m), r.2.1, r.2.2)

/-- The `WithHistogramHook` closure. -/
def Component.histogramHook (c : Component) (w : World) (i : Nat) (t : Int) (hg : Nat)
    (next : NextAppender) :
    (Nat × Option String) × Option Forwarded × Component × World :=
  if c.exited then ((0, some (c.id ++ " has exited")), none, c, w)
  else
    let r := c.relabel 0 w i
    if r.1 = [] then ((0, none), none, r.2.1, r.2.2)
    else ((next.appendHistogram r.1 t hg), some (.histogramOf r.1 t hg), r.2.1, r.2.2)

/-- A freshly built component (the state `New` leaves behind, with the
rule list already installed by its initial `Update`). -/
def newComponent (proc : ProcFn) (cap : Nat) (cid : String) : Component :=
  { mrc := proc, ls := [], cache := [], cap := cap, exited := false, id := cid,
    forwardTo := [], metricsProcessed := 0, metricsOutgoing := 0, cacheHits := 0,
    cacheMisses := 0, cacheDeletes := 0, cacheSizeGauge := 0 }

/-- One call of the data path: the caller hands over a live buffer holding
its label set and the component relabels it. -/
def runCall (sw : Component × World) (call : FVal × Labels) : Component × World :=
  let a := sw.2.alloc call.2
  let r := sw.1.relabel call.1 a.2 a.1
  (r.2.1, r.2.2)

/-- A whole sequence of relabel calls against a freshly built component. -/
def runCalls (proc : ProcFn) (cap : Nat) (cid : String)
    (calls : List (FVal × Labels)) : Component × World :=
  calls.foldl runCall (newComponent proc cap cid, ⟨[]⟩)

/-! ### Cache coherence

Every cache entry is keyed by the GlobalRefID of some interned label set
`L0` and records exactly what the rules make of `L0`: `none` when they
drop it, otherwise the output labels together with their GlobalRefID. -/

def entryOk (proc : ProcFn) (ls : List Labels) (p : Nat × CEntry) : Prop :=
  ∃ L0, ls[p.1]? = some L0 ∧
    ((proc.result L0 = none ∧ p.2 = none) ∨
     (∃ L' j, proc.result L0 = some L' ∧ p.2 = some ⟨L', j⟩ ∧ ls[j]? = some L'))

def cacheOk (proc : ProcFn) (ls : List Labels) (cache : Cache) : Prop :=
  ∀ p ∈ cache, entryOk proc ls p

theorem entryOk_extends {proc : ProcFn} {ls ls' : List Labels} {p : Nat × CEntry} :
    storeExtends ls ls' → entryOk proc ls p → entryOk proc ls' p := by
  rintro hext ⟨L0, hL0, hcase⟩
  refine ⟨L0, storeExtends_getElem hext hL0, ?_⟩
  rcases hcase with ⟨h1, h2⟩ | ⟨L', j, h1, h2, h3⟩
  · exact Or.inl ⟨h1, h2⟩
  · exact Or.inr ⟨L', j, h1, h2, storeExtends_getElem hext h3⟩

theorem lruGet_lookup_none {c : Cache} {k : Nat} (h : lookupKV c k = none) :
    lruGet c k = (none, c) := by
  simp [lruGet, h]

theorem lruGet_lookup_some {c : Cache} {k : Nat} {v : CEntry}
    (h : lookupKV c k = some v) :
    lruGet c k = (some v, (k, v) :: eraseKV c k) := by
  simp [lruGet, h]

/-- The relabel hot path keeps the store append-only and duplicate-free,
keeps every cache entry coherent, and never touches the rule list, the
capacity, the exit flag or the component id. -/
theorem relabel_inv (c : Component) (val : FVal) (w : World) (i : Nat) :
    c.ls.Nodup → cacheOk c.mrc c.ls c.cache →
    (c.relabel val w i).2.1.ls.Nodup ∧
    cacheOk c.mrc (c.relabel val w i).2.1.ls (c.relabel val w i).2.1.cache ∧
    storeExtends c.ls (c.relabel val w i).2.1.ls ∧
    (c.relabel val w i).2.1.mrc = c.mrc ∧
    (c.relabel val w i).2.1.cap = c.cap ∧
    (c.relabel val w i).2.1.exited = c.exited ∧
    (c.relabel val w i).2.1.id = c.id := by
  intro hnd hok
  cases hl : lookupKV c.cache (getOrAddGlobalRefID c.ls (w.read i)).1 with
  | some entry =>
    have hext : storeExtends c.ls (getOrAddGlobalRefID c.ls (w.read i)).2 :=
      getOrAddGlobalRefID_extends c.ls (w.read i)
    have hnd' : (getOrAddGlobalRefID c.ls (w.read i)).2.Nodup :=
      getOrAddGlobalRefID_nodup _ hnd
    by_cases hstale : isStaleNaN val = true
    · refine ⟨?_, ?_, ?_, ?_, ?_, ?_, ?_⟩ <;>
        simp only [Component.relabel, Component.getFromCache, lruGet_lookup_some hl,
          Component.deleteFromCache, lruRemove, hstale, if_pos, if_true]
      · exact hnd'
      · intro p hp
        have hpc : p ∈ c.cache := by
          have h1 := mem_eraseKV hp
          rcases List.mem_cons.mp h1.1 with h2 | h2
          · exact h2 ▸ lookupKV_some_mem hl
          · exact (mem_eraseKV h2).1
        exact entryOk_extends hext (hok p hpc)
      · exact hext
    · refine ⟨?_, ?_, ?_, ?_, ?_, ?_, ?_⟩ <;>
        simp only [Component.relabel, Component.getFromCache, lruGet_lookup_some hl,
          hstale, if_false, Bool.false_eq_true, ite_false]
      · exact hnd'
      · intro p hp
        have hpc : p ∈ c.cache := by
          rcases List.mem_cons.mp hp with h2 | h2
          · exact h2 ▸ lookupKV_some_mem hl
          · exact (mem_eraseKV h2).1
        exact entryOk_extends hext (hok p hpc)
      · exact hext
  | none =>
    have hext1 : storeExtends c.ls (getOrAddGlobalRefID c.ls (w.read i)).2 :=
      getOrAddGlobalRefID_extends c.ls (w.read i)
    have hnd1 : (getOrAddGlobalRefID c.ls (w.read i)).2.Nodup :=
      getOrAddGlobalRefID_nodup _ hnd
    cases hres : c.mrc.result (w.read i) with
    | none =>
      have hnew : entryOk c.mrc (getOrAddGlobalRefID c.ls (w.read i)).2
          ((getOrAddGlobalRefID c.ls (w.read i)).1, (none : CEntry)) :=
        ⟨w.read i, getOrAddGlobalRefID_getElem _ _, Or.inl ⟨hres, rfl⟩⟩
      by_cases hstale : isStaleNaN val = true
      · refine ⟨?_, ?_, ?_, ?_, ?_, ?_, ?_⟩ <;>
          simp only [Component.relabel, Component.getFromCache, lruGet_lookup_none hl,
            runProc, World.read_alloc, hres, addToCache, Component.deleteFromCache,
            lruRemove, hstale, if_true, Bool.false_eq_true, ite_false]
        · exact hnd1
        · intro p hp
          rcases mem_lruAdd (mem_eraseKV hp).1 with h2 | h2
          · exact h2 ▸ hnew
          · exact entryOk_extends hext1 (hok p h2)
        · exact hext1
      · refine ⟨?_, ?_, ?_, ?_, ?_, ?_, ?_⟩ <;>
          simp only [Component.relabel, Component.getFromCache, lruGet_lookup_none hl,
            runProc, World.read_alloc, hres, addToCache, Component.deleteFromCache,
            lruRemove, hstale, Bool.false_eq_true, ite_false]
        · exact hnd1
        · intro p hp
          rcases mem_lruAdd hp with h2 | h2
          · exact h2 ▸ hnew
          · exact entryOk_extends hext1 (hok p h2)
        · exact hext1
    | some L' =>
      have hext2 : storeExtends (getOrAddGlobalRefID c.ls (w.read i)).2
          (getOrAddGlobalRefID (getOrAddGlobalRefID c.ls (w.read i)).2 L').2 :=
        getOrAddGlobalRefID_extends _ L'
      have hnd2 : (getOrAddGlobalRefID (getOrAddGlobalRefID c.ls (w.read i)).2 L').2.Nodup :=
        getOrAddGlobalRefID_nodup _ hnd1
      have hnew : entryOk c.mrc (getOrAddGlobalRefID (getOrAddGlobalRefID c.ls (w.read i)).2 L').2
          ((getOrAddGlobalRefID c.ls (w.read i)).1,
            (some ⟨L', (getOrAddGlobalRefID (getOrAddGlobalRefID c.ls (w.read i)).2 L').1⟩ : CEntry)) :=
        ⟨w.read i, storeExtends_getElem hext2 (getOrAddGlobalRefID_getElem _ _),
          Or.inr ⟨L', _, hres, rfl, getOrAddGlobalRefID_getElem _ _⟩⟩
      by_cases hstale : isStaleNaN val = true
      · refine ⟨?_, ?_, ?_, ?_, ?_, ?_, ?_⟩ <;>
          simp only [Component.relabel, Component.getFromCache, lruGet_lookup_none hl,
            runProc, World.read_alloc, hres, addToCache, Component.deleteFromCache,
            lruRemove, hstale, if_true, Bool.false_eq_true, ite_false]
        · exact hnd2
        · intro p hp
          rcases mem_lruAdd (mem_eraseKV hp).1 with h2 | h2
          · exact h2 ▸ hnew
          · exact entryOk_extends (storeExtends_trans hext1 hext2) (hok p h2)
        · exact storeExtends_trans hext1 hext2
      · refine ⟨?_, ?_, ?_, ?_, ?_, ?_, ?_⟩ <;>
          simp only [Component.relabel, Component.getFromCache, lruGet_lookup_none hl,
            runProc, World.read_alloc, hres, addToCache, Component.deleteFromCache,
            lruRemove, hstale, Bool.false_eq_true, ite_false]
        · exact hnd2
        · intro p hp
          rcases mem_lruAdd hp with h2 | h2
          · exact h2 ▸ hnew
          · exact entryOk_extends (storeExtends_trans hext1 hext2) (hok p h2)
        · exact storeExtends_trans hext1 hext2

/-- On a coherent cache the hot path always returns exactly what the rules
make of a fresh copy of the incoming label set. -/
theorem relabel_output (c : Component) (val : FVal) (w : World) (i : Nat) :
    cacheOk c.mrc c.ls c.cache →
    (c.relabel val w i).1 = processFresh c.mrc (w.read i) := by
  intro hok
  cases hl : lookupKV c.cache (getOrAddGlobalRefID c.ls (w.read i)).1 with
  | some entry =>
    obtain ⟨L0, hL0, hcase⟩ := hok _ (lookupKV_some_mem hl)
    have hL0b : c.ls[(getOrAddGlobalRefID c.ls (w.read i)).1]? = some L0 := hL0
    have hL0' : L0 = w.read i := by
      cases hfind : storeFind c.ls (w.read i) with
      | none =>
        simp only [getOrAddGlobalRefID, hfind] at hL0b
        rw [List.getElem?_eq_none (Nat.le_refl _)] at hL0b
        exact Option.noConfusion hL0b
      | some idx =>
        simp only [getOrAddGlobalRefID, hfind] at hL0b
        rw [storeFind_some_getElem hfind] at hL0b
        exact (Option.some.inj hL0b).symm
    subst hL0'
    rcases hcase with ⟨hr0, hent⟩ | ⟨L', j, hr0, hent, hj⟩
    · have hentb : entry = none := hent
      subst hentb
      simp [Component.relabel, Component.getFromCache, lruGet_lookup_some hl,
        processFresh, hr0]
    · have hentb : entry = some ⟨L', j⟩ := hent
      subst hentb
      simp [Component.relabel, Component.getFromCache, lruGet_lookup_some hl,
        processFresh, hr0]
  | none =>
    cases hres : c.mrc.result (w.read i) with
    | none =>
      simp [Component.relabel, Component.getFromCache, lruGet_lookup_none hl,
        runProc, World.read_alloc, processFresh, hres]
    | some L' =>
      simp [Component.relabel, Component.getFromCache, lruGet_lookup_none hl,
        runProc, World.read_alloc, processFresh, hres]

/-- After a call on a buffer holding `L`, the store still resolves `L` to
the id the call used. -/
theorem relabel_find (c : Component) (val : FVal) (w : World) (i : Nat) :
    storeFind (c.relabel val w i).2.1.ls (w.read i)
      = some (getOrAddGlobalRefID c.ls (w.read i)).1 := by
  have hfind := getOrAddGlobalRefID_find c.ls (w.read i)
  cases hl : lookupKV c.cache (getOrAddGlobalRefID c.ls (w.read i)).1 with
  | some entry =>
    by_cases hstale : isStaleNaN val = true <;>
      simpa [Component.relabel, Component.getFromCache, lruGet_lookup_some hl,
        Component.deleteFromCache, hstale] using hfind
  | none =>
    cases hres : c.mrc.result (w.read i) with
    | none =>
      by_cases hstale : isStaleNaN val = true <;>
        simpa [Component.relabel, Component.getFromCache, lruGet_lookup_none hl,
          runProc, World.read_alloc, hres, addToCache, Component.deleteFromCache,
          hstale] using hfind
    | some L' =>
      have hfind2 := storeExtends_storeFind (getOrAddGlobalRefID_extends
        (getOrAddGlobalRefID c.ls (w.read i)).2 L') hfind
      by_cases hstale : isStaleNaN val = true <;>
        simpa [Component.relabel, Component.getFromCache, lruGet_lookup_none hl,
          runProc, World.read_alloc, hres, addToCache, Component.deleteFromCache,
          hstale] using hfind2

/-- A cache miss takes the miss path: the miss counter advances. -/
theorem relabel_miss_count (c : Component) (val : FVal) (w : World) (i : Nat) :
    lookupKV c.cache (getOrAddGlobalRefID c.ls (w.read i)).1 = none →
    (c.relabel val w i).2.1.cacheMisses = c.cacheMisses + 1 := by
  intro hl
  cases hres : c.mrc.result (w.read i) with
  | none =>
    by_cases hstale : isStaleNaN val = true <;>
      simp [Component.relabel, Component.getFromCache, lruGet_lookup_none hl,
        runProc, World.read_alloc, hres, addToCache, Component.deleteFromCache, hstale]
  | some L' =>
    by_cases hstale : isStaleNaN val = true <;>
      simp [Component.relabel, Component.getFromCache, lruGet_lookup_none hl,
        runProc, World.read_alloc, hres, addToCache, Component.deleteFromCache, hstale]

/-- A cache hit takes the hit path: the rules are not re-applied (the miss
counter, which counts exactly the rule applications, is unchanged). -/
theorem relabel_hit_count (c : Component) (val : FVal) (w : World) (i : Nat) :
    (lookupKV c.cache (getOrAddGlobalRefID c.ls (w.read i)).1).isSome = true →
    (c.relabel val w i).2.1.cacheMisses = c.cacheMisses ∧
    (c.relabel val w i).2.1.cacheHits = c.cacheHits + 1 := by
  intro hl
  cases hsome : lookupKV c.cache (getOrAddGlobalRefID c.ls (w.read i)).1 with
  | none => rw [hsome] at hl; exact Bool.noConfusion hl
  | some entry =>
    by_cases hstale : isStaleNaN val = true <;>
      simp [Component.relabel, Component.getFromCache, lruGet_lookup_some hsome,
        Component.deleteFromCache, hstale]

/-- A stale marker evicts the entry for the incoming set after the output
is produced: the id is gone from the cache the call leaves behind. -/
theorem relabel_stale_evict (c : Component) (val : FVal) (w : World) (i : Nat) :
    isStaleNaN val = true →
    lookupKV (c.relabel val w i).2.1.cache
      (getOrAddGlobalRefID c.ls (w.read i)).1 = none := by
  intro hstale
  cases hl : lookupKV c.cache (getOrAddGlobalRefID c.ls (w.read i)).1 with
  | some entry =>
    simpa [Component.relabel, Component.getFromCache, lruGet_lookup_some hl,
      Component.deleteFromCache, lruRemove, hstale] using
      lookupKV_eraseKV_self _ (getOrAddGlobalRefID c.ls (w.read i)).1
  | none =>
    cases hres : c.mrc.result (w.read i) with
    | none =>
      simpa [Component.relabel, Component.getFromCache, lruGet_lookup_none hl,
        runProc, World.read_alloc, hres, addToCache, Component.deleteFromCache,
        lruRemove, hstale] using
        lookupKV_eraseKV_self _ (getOrAddGlobalRefID c.ls (w.read i)).1
    | some L' =>
      simpa [Component.relabel, Component.getFromCache, lruGet_lookup_none hl,
        runProc, World.read_alloc, hres, addToCache, Component.deleteFromCache,
        lruRemove, hstale] using
        lookupKV_eraseKV_self _ (getOrAddGlobalRefID c.ls (w.read i)).1

/-- The states a call sequence can reach: rules fixed, store duplicate-free,
cache coherent. -/
def stateOk (proc : ProcFn) (c : Component) : Prop :=
  c.mrc = proc ∧ c.ls.Nodup ∧ cacheOk proc c.ls c.cache

theorem stateOk_runCall {proc : ProcFn} (sw : Component × World) (call : FVal × Labels) :
    stateOk proc sw.1 → stateOk proc (runCall sw call).1 := by
  rintro ⟨hm, hnd, hok⟩
  have h := relabel_inv sw.1 call.1 (sw.2.alloc call.2).2 (sw.2.alloc call.2).1 hnd
    (by rw [hm]; exact hok)
  obtain ⟨h1, h2, h3, h4, h5⟩ := h
  refine ⟨?_, ?_, ?_⟩
  · simpa [runCall, hm] using h4
  · simpa [runCall] using h1
  · have : cacheOk sw.1.mrc (runCall sw call).1.ls (runCall sw call).1.cache := by
      simpa [runCall] using h2
    rwa [hm] at this

theorem foldl_stateOk {proc : ProcFn} (calls : List (FVal × Labels)) :
    ∀ sw : Component × World, stateOk proc sw.1 →
    stateOk proc (calls.foldl runCall sw).1 := by
  induction calls with
  | nil => intro sw h; simpa using h
  | cons cl rest ih =>
    intro sw h
    simp only [List.foldl_cons]
    exact ih _ (stateOk_runCall sw cl h)

theorem runCalls_stateOk (proc : ProcFn) (cap : Nat) (cid : String)
    (calls : List (FVal × Labels)) : stateOk proc (runCalls proc cap cid calls).1 := by
  rw [runCalls]
  exact foldl_stateOk calls _
    ⟨rfl, List.nodup_nil, fun p hp => absurd hp (List.not_mem_nil p)⟩

/-! ### Component introspection

`Runtime.GetComponent`, `Runtime.ListComponents` and
`Runtime.getComponentDetail`: the graph holds nodes of several kinds
(components, config blocks, imports, declares); only component nodes pass
the `controller.ComponentNode` type assertion. -/

inductive NodeKind where
  | componentNode
  | configBlockNode
  | importNode
  | declareNode
  deriving DecidableEq

/-- A `dag.Node` of the loader's graph. -/
structure GNode where
  nodeID : String
  kind : NodeKind
  deriving DecidableEq

/-- The `node.(controller.ComponentNode)` type assertion. -/
def isComponentNode (n : GNode) : Bool := n.kind = NodeKind.componentNode

/-- The loader's `dag.Graph`: nodes, and directed edges `(from, to)` where
`from` depends on `to`. -/
structure Graph where
  nodes : List GNode
  edges : List (String × String)
  deriving DecidableEq

/-- `Graph.GetByID`. -/
def Graph.getByID (g : Graph) (id : String) : Option GNode :=
  g.nodes.find? (fun n => n.nodeID = id)

/-- `Graph.Dependencies(n)`: targets of the out-edges of `n`. -/
def Graph.dependencies (g : Graph) (n : GNode) : List GNode :=
  (g.edges.filter (fun e => e.1 = n.nodeID)).filterMap (fun e => g.getByID e.2)

/-- `Graph.Dependants(n)`: sources of the in-edges of `n`. -/
def Graph.dependants (g : Graph) (n : GNode) : List GNode :=
  (g.edges.filter (fun e => e.2 = n.nodeID)).filterMap (fun e => g.getByID e.1)

/-- The parts of `component.Info` the provider claims are about. -/
structure Info where
  localID : String
  references : List String
  referencedBy : List String
  deriving DecidableEq

/-- `Runtime.getComponentDetail`: collect References and ReferencedBy,
skipping every edge whose other endpoint is not a component node. -/
def getComponentDetail (g : Graph) (cn : GNode) : Info :=
  { localID := cn.nodeID
    references := ((g.dependencies cn).filter isComponentNode).map GNode.nodeID
    referencedBy := ((g.dependants cn).filter isComponentNode).map GNode.nodeID }

/-- `Runtime.GetComponent` for a local id (no module recursion): not-found
and not-a-component are errors. -/
def Runtime.getComponent (g : Graph) (id : String) : Except String Info :=
  match g.getByID id with
  | none => Except.error "component does not exist"
  | some node =>
    if isComponentNode node then Except.ok (getComponentDetail g node)
    else Except.error (id ++ " is not a component")

/-- `Runtime.ListComponents`: detail for every component node of the graph. -/
def Runtime.listComponents (g : Graph) : List Info :=
  (g.nodes.filter isComponentNode).map (getComponentDetail g)

/-- References and ReferencedBy list exactly the component-node endpoints
of the node's edges. -/
def refsMatch (g : Graph) (cn : GNode) (info : Info) : Prop :=
  (∀ x, x ∈ info.references ↔
    ∃ n, n ∈ g.dependencies cn ∧ isComponentNode n = true ∧ n.nodeID = x) ∧
  (∀ x, x ∈ info.referencedBy ↔
    ∃ n, n ∈ g.dependants cn ∧ isComponentNode n = true ∧ n.nodeID = x)

theorem refsMatch_detail (g : Graph) (cn : GNode) :
    refsMatch g cn (getComponentDetail g cn) := by
  constructor <;>
    · intro x
      simp only [getComponentDetail, List.mem_map, List.mem_filter]
      constructor
      · rintro ⟨n, ⟨hn, hc⟩, rfl⟩
        exact ⟨n, hn, hc, rfl⟩
      · rintro ⟨n, hn, hc, rfl⟩
        exact ⟨n, ⟨hn, hc⟩, rfl⟩

/-! ### The regex stage of the log pipeline

The stage implementation (`regex.go`) is in the repository only through
its tests, so the definitions below are modelled from the specification
(§4.6) and checked against the behaviour the tests pin down.  The RE2
engine is an external collaborator: a compiled expression is abstracted
by its named-group matcher, and compilation by a function from expression
text to either a diagnostic or a compiled regex. -/

/-- Modelled from the spec: a compiled regular expression, abstracted by
its behaviour — for a subject string, `none` when the regex does not
match, otherwise the values of the named capture groups in order. -/
structure CompiledRegex where
  matchGroups : String → Option (List (String × String))

/-- Modelled from the spec: a value of the pipeline's shared extracted
map (`map[string]interface{}`); only strings can be used as a regex
stage's source. -/
inductive EVal where
  | vstr (s : String)
  | vnull
  | vbool (b : Bool)
  | vint (n : Int)
  deriving DecidableEq

/-- Modelled from the spec: coercion of an extracted value to a string;
non-string values cannot be coerced. -/
def toStringVal : EVal → Option String
  | EVal.vstr s => some s
  | _ => none

/-- Modelled from the spec: a log entry in flight. -/
structure Entry where
  ts : Int
  entryLabels : List (String × String)
  line : String
  extracted : List (String × EVal)
  deriving DecidableEq

/-- Modelled from the spec: the `stage.regex` configuration; an empty
`expression` stands for an absent one, `source` is optional. -/
structure RegexConfig where
  expression : String
  source : Option String
  labelsFromGroups : Bool
  deriving DecidableEq

/-- The regex stage's build-time error taxonomy. -/
inductive RegexStageError where
  | expressionRequired
  | couldNotCompileRegex (diag : String)
  | emptyRegexStageSource
  deriving DecidableEq

/-- Modelled from the spec: `validateRegexConfig` — expression required,
must compile, and a set-but-empty source is rejected.  `compile` is the
RE2 compiler. -/
def validateRegexConfig (compile : String → Except String CompiledRegex)
    (c : RegexConfig) : Except RegexStageError CompiledRegex :=
  if c.expression = "" then Except.error RegexStageError.expressionRequired
  else
    match compile c.expression with
    | Except.error diag => Except.error (RegexStageError.couldNotCompileRegex diag)
    | Except.ok re =>
      if c.source = some "" then Except.error RegexStageError.emptyRegexStageSource
      else Except.ok re

/-- The debug message the stage logs when the source value is not a string. -/
def convertErrMsg : String := "failed to convert source value to string"

/-- The debug message the stage logs when the source key is absent. -/
def missingSourceMsg : String := "source does not exist in the set of extracted values"

/-- Modelled from the spec: on a match, write every named group to the
extracted map and, when `labelsFromGroups` is set, to the labels,
overwriting same-named entries. -/
def applyGroups (re : CompiledRegex) (c : RegexConfig) (e : Entry) (s : String) : Entry :=
  match re.matchGroups s with
  | none => e
  | some groups =>
    let ex := groups.foldl (fun m kv => upsertKV m kv.1 (EVal.vstr kv.2)) e.extracted
    let lb := if c.labelsFromGroups then
                groups.foldl (fun m kv => upsertKV m kv.1 kv.2) e.entryLabels
              else e.entryLabels
    { e with extracted := ex, entryLabels := lb }

/-- Modelled from the spec: the stage's `Process` — resolve the source
(the line when unset), pass the entry through unchanged on a missing or
non-string source or on no match; the second component is the debug
message logged, if any. -/
def regexProcess (re : CompiledRegex) (c : RegexConfig) (e : Entry) :
    Entry × Option String :=
  match c.source with
  | none => (applyGroups re c e e.line, none)
  | some k =>
    match lookupKV e.extracted k with
    | none => (e, some missingSourceMsg)
    | some v =>
      match toStringVal v with
      | none => (e, some convertErrMsg)
      | some s => (applyGroups re c e s, none)

/-- The string the stage runs the regex on, when one can be resolved. -/
def sourceString (c : RegexConfig) (e : Entry) : Option String :=
  match c.source with
  | none => some e.line
  | some k => (lookupKV e.extracted k).bind toStringVal

theorem regexProcess_of_sourceString {re : CompiledRegex} {c : RegexConfig} {e : Entry}
    {s : String} : sourceString c e = some s →
    regexProcess re c e = (applyGroups re c e s, none) := by
  intro h
  cases hsrc : c.source with
  | none =>
    simp only [sourceString, hsrc] at h
    have hes : e.line = s := Option.some.inj h
    simp [regexProcess, hsrc, hes]
  | some k =>
    simp only [sourceString, hsrc] at h
    cases hlk : lookupKV e.extracted k with
    | none => simp [hlk] at h
    | some v =>
      simp only [hlk, Option.some_bind] at h
      simp [regexProcess, hsrc, hlk, h]

/-- Folding map assignments over pairwise-distinct keys: each key ends up
bound to its value, whatever was there before. -/
theorem lookupKV_foldl_upsert_not_mem {α : Type} (f : String → α)
    (groups : List (String × String)) (k : String) :
    ∀ init : List (String × α), k ∉ groups.map Prod.fst →
    lookupKV (groups.foldl (fun m kv => upsertKV m kv.1 (f kv.2)) init) k
      = lookupKV init k := by
  induction groups with
  | nil => intro init _; rfl
  | cons kv rest ih =>
    intro init hk
    simp only [List.map_cons, List.mem_cons] at hk
    push_neg at hk
    simp only [List.foldl_cons]
    rw [ih _ hk.2]
    exact lookupKV_upsertKV_ne init (f kv.2) hk.1

theorem lookupKV_foldl_upsert_mem {α : Type} (f : String → α)
    (groups : List (String × String)) (k : String) (v : String) :
    ∀ init : List (String × α), (groups.map Prod.fst).Nodup → (k, v) ∈ groups →
    lookupKV (groups.foldl (fun m kv => upsertKV m kv.1 (f kv.2)) init) k
      = some (f v) := by
  induction groups with
  | nil => intro init _ hmem; simp at hmem
  | cons kv rest ih =>
    intro init hnd hmem
    simp only [List.map_cons, List.nodup_cons] at hnd
    simp only [List.foldl_cons]
    rcases List.mem_cons.mp hmem with heq | hmem'
    · have hk1 : kv.1 = k := by rw [← heq]
      have hv : kv.2 = v := by rw [← heq]
      have hnotin : k ∉ rest.map Prod.fst := hk1 ▸ hnd.1
      rw [lookupKV_foldl_upsert_not_mem f rest k _ hnotin, hk1,
        lookupKV_upsertKV_self init k (f kv.2), hv]
    · exact ih _ hnd.2 hmem'

/-! ### Concrete fixtures used by the witnesses -/

/-- A rule list that drops every series. -/
def dropAllRules : ProcFn := { result := fun _ => none, after := fun l => l }

/-- A rule list that keeps every series but scribbles over the slice it is
handed, exercising the copy in the hot path. -/
def scribbleRules : ProcFn :=
  { result := fun l => some l, after := fun _ => [("scribbled", "1")] }

def demoNext : NextAppender :=
  { append := fun _ _ _ => (1, none), appendExemplar := fun _ _ => (1, none),
    updateMetadata := fun _ _ => (1, none), appendHistogram := fun _ _ _ => (1, none) }

def demoCompile : String → Except String CompiledRegex := fun s =>
  if s = "(" then Except.error "error parsing regexp: missing closing )"
  else Except.ok { matchGroups := fun _ => none }

def demoRegex : CompiledRegex :=
  { matchGroups := fun s =>
      if s = "line0" then some [("ip", "1.2.3.4"), ("user", "frank")] else none }

def demoGraph : Graph :=
  { nodes := [⟨"a", NodeKind.componentNode⟩, ⟨"b", NodeKind.configBlockNode⟩,
      ⟨"c", NodeKind.componentNode⟩],
    edges := [("a", "b"), ("a", "c"), ("c", "a")] }

/-! ### The claims -/

/-- C1: for every relabel call, a miss applies the rules to a copy of the
input and caches (nil on drop, output labels with their GlobalRefID on
keep), a hit reuses the cached output without re-applying the rules
(the miss counter, which counts exactly the rule applications, stays
put); hence after any sequence of calls the output for an input holding
`L` is exactly the rules applied to a fresh copy of `L`, and every cache
entry is coherent with the rules. -/
theorem relabel_cache_correctness (proc : ProcFn) (cap : Nat) (cid : String)
    (calls : List (FVal × Labels)) (val : FVal) (L : Labels) :
    ((runCalls proc cap cid calls).1.relabel val
        ((runCalls proc cap cid calls).2.alloc L).2
        ((runCalls proc cap cid calls).2.alloc L).1).1 = processFresh proc L ∧
    cacheOk proc (runCalls proc cap cid calls).1.ls
      (runCalls proc cap cid calls).1.cache ∧
    ((lookupKV (runCalls proc cap cid calls).1.cache
        (getOrAddGlobalRefID (runCalls proc cap cid calls).1.ls L).1).isSome = true →
      ((runCalls proc cap cid calls).1.relabel val
          ((runCalls proc cap cid calls).2.alloc L).2
          ((runCalls proc cap cid calls).2.alloc L).1).2.1.cacheMisses
        = (runCalls proc cap cid calls).1.cacheMisses) := by
  obtain ⟨hm, hnd, hok⟩ := runCalls_stateOk proc cap cid calls
  refine ⟨?_, hok, ?_⟩
  · have h := relabel_output (runCalls proc cap cid calls).1 val
      ((runCalls proc cap cid calls).2.alloc L).2
      ((runCalls proc cap cid calls).2.alloc L).1
      (by rw [hm]; exact hok)
    simpa [World.read_alloc, hm] using h
  · intro hsome
    exact (relabel_hit_count (runCalls proc cap cid calls).1 val
      ((runCalls proc cap cid calls).2.alloc L).2
      ((runCalls proc cap cid calls).2.alloc L).1
      (by simpa [World.read_alloc] using hsome)).1

/-- C2: a relabel call never changes any live label buffer — in
particular the caller's label set is bit-identical after the call,
because the rules only ever run on a fresh copy. -/
theorem relabel_no_input_mutation (c : Component) (val : FVal) (w : World)
    (i j : Nat) (hj : j < w.buffers.length) :
    (c.relabel val w i).2.2.read j = w.read j := by
  cases hl : lookupKV c.cache (getOrAddGlobalRefID c.ls (w.read i)).1 with
  | some entry =>
    by_cases hstale : isStaleNaN val = true <;>
      simp [Component.relabel, Component.getFromCache, lruGet_lookup_some hl, hstale,
        Component.deleteFromCache]
  | none =>
    have hne : ¬ j = w.buffers.length := Nat.ne_of_lt hj
    cases hres : c.mrc.result (w.read i) with
    | none =>
      simp only [Component.relabel, Component.getFromCache, lruGet_lookup_none hl,
        runProc, World.read_alloc, hres]
      simp only [World.alloc, World.write, World.read]
      rw [bufGet_bufSet_ne hne, bufGet_append_lt _ hj]
    | some L' =>
      simp only [Component.relabel, Component.getFromCache, lruGet_lookup_none hl,
        runProc, World.read_alloc, hres]
      simp only [World.alloc, World.write, World.read]
      rw [bufGet_bufSet_ne hne, bufGet_append_lt _ hj]

/-- C2 witness: a concrete call under rules that scribble over the slice
they receive leaves the caller's buffer untouched. -/
theorem relabel_no_input_mutation_witness :
    ((newComponent scribbleRules 5 "comp").relabel 0
      (World.mk [[("job", "a")]]) 0).2.2.read 0 = (World.mk [[("job", "a")]]).read 0 :=
  relabel_no_input_mutation (newComponent scribbleRules 5 "comp") 0
    (World.mk [[("job", "a")]]) 0 0 (by decide)

/-- C3: a stale-NaN call still produces the rules' output for `L` (the
marker propagates), evicts `L`'s cache entry after emission, and the next
call for the same label set — whatever its value — misses the cache and
re-derives from the rules. -/
theorem stale_marker_evicts_and_propagates (proc : ProcFn) (cap : Nat) (cid : String)
    (calls : List (FVal × Labels)) (L : Labels) (val2 : FVal) :
    ((runCalls proc cap cid calls).1.relabel staleNaN
        ((runCalls proc cap cid calls).2.alloc L).2
        ((runCalls proc cap cid calls).2.alloc L).1).1 = processFresh proc L ∧
    lookupKV (runCalls proc cap cid (calls ++ [(staleNaN, L)])).1.cache
      (getOrAddGlobalRefID (runCalls proc cap cid (calls ++ [(staleNaN, L)])).1.ls L).1
      = none ∧
    ((runCalls proc cap cid (calls ++ [(staleNaN, L)])).1.relabel val2
        ((runCalls proc cap cid (calls ++ [(staleNaN, L)])).2.alloc L).2
        ((runCalls proc cap cid (calls ++ [(staleNaN, L)])).2.alloc L).1).2.1.cacheMisses
      = (runCalls proc cap cid (calls ++ [(staleNaN, L)])).1.cacheMisses + 1 := by
  obtain ⟨hm, hnd, hok⟩ := runCalls_stateOk proc cap cid calls
  have hsnoc : runCalls proc cap cid (calls ++ [(staleNaN, L)])
      = runCall (runCalls proc cap cid calls) (staleNaN, L) := by
    simp [runCalls, List.foldl_append]
  have hstale : isStaleNaN staleNaN = true := by simp [isStaleNaN]
  have hfind : storeFind (runCalls proc cap cid (calls ++ [(staleNaN, L)])).1.ls L
      = some (getOrAddGlobalRefID (runCalls proc cap cid calls).1.ls L).1 := by
    rw [hsnoc]
    have h := relabel_find (runCalls proc cap cid calls).1 staleNaN
      ((runCalls proc cap cid calls).2.alloc L).2
      ((runCalls proc cap cid calls).2.alloc L).1
    simpa [runCall, World.read_alloc] using h
  have hid : getOrAddGlobalRefID
      (runCalls proc cap cid (calls ++ [(staleNaN, L)])).1.ls L
      = ((getOrAddGlobalRefID (runCalls proc cap cid calls).1.ls L).1,
         (runCalls proc cap cid (calls ++ [(staleNaN, L)])).1.ls) := by
    simp [getOrAddGlobalRefID, hfind]
  have hevict : lookupKV (runCalls proc cap cid (calls ++ [(staleNaN, L)])).1.cache
      (getOrAddGlobalRefID (runCalls proc cap cid calls).1.ls L).1 = none := by
    rw [hsnoc]
    have h := relabel_stale_evict (runCalls proc cap cid calls).1 staleNaN
      ((runCalls proc cap cid calls).2.alloc L).2
      ((runCalls proc cap cid calls).2.alloc L).1 hstale
    simpa [runCall, World.read_alloc] using h
  refine ⟨?_, ?_, ?_⟩
  · have h := relabel_output (runCalls proc cap cid calls).1 staleNaN
      ((runCalls proc cap cid calls).2.alloc L).2
      ((runCalls proc cap cid calls).2.alloc L).1
      (by rw [hm]; exact hok)
    simpa [World.read_alloc, hm] using h
  · rw [hid]
    exact hevict
  · apply relabel_miss_count
    rw [World.read_alloc, hid]
    exact hevict

/-- C4: the cache capacity defaults to 100,000, validation errors exactly
when the configured capacity is not positive, and every update clears the
cache and rebuilds it at the newly configured capacity. -/
theorem relabel_cache_config :
    Arguments.setToDefault.cacheSize = 100000 ∧
    (∀ a : Arguments, (a.validate).isSome = true ↔ a.cacheSize ≤ 0) ∧
    (∀ (c : Component) (a : Arguments),
      (c.update a).cache = [] ∧ (c.update a).cap = a.cacheSize.toNat) := by
  refine ⟨rfl, ?_, ?_⟩
  · intro a
    by_cases h : a.cacheSize ≤ 0 <;> simp [Arguments.validate, h]
  · intro c a
    exact ⟨rfl, rfl⟩

/-- C5: on every hook point, when the relabelled label set is empty —
in particular when the rules drop the series — nothing is forwarded to
the next appender and the hook returns `(0, nil)`. -/
theorem empty_relabel_drops_silently (c : Component) (w : World) (i : Nat)
    (t : Int) (v : FVal) (e m hg : Nat) (next : NextAppender)
    (hrun : c.exited = false) :
    ((c.relabel v w i).1 = [] →
      (c.appendHook w i t v next).1 = (0, none) ∧
      (c.appendHook w i t v next).2.1 = none) ∧
    ((c.relabel 0 w i).1 = [] →
      ((c.exemplarHook w i e next).1 = (0, none) ∧
        (c.exemplarHook w i e next).2.1 = none) ∧
      ((c.metadataHook w i m next).1 = (0, none) ∧
        (c.metadataHook w i m next).2.1 = none) ∧
      ((c.histogramHook w i t hg next).1 = (0, none) ∧
        (c.histogramHook w i t hg next).2.1 = none)) := by
  constructor
  · intro hempty
    constructor <;> simp [Component.appendHook, hrun, hempty]
  · intro hempty
    refine ⟨⟨?_, ?_⟩, ⟨?_, ?_⟩, ⟨?_, ?_⟩⟩ <;>
      simp [Component.exemplarHook, Component.metadataHook, Component.histogramHook,
        hrun, hempty]

/-- C5 witness: a drop-everything rule list on a concrete sample. -/
theorem empty_relabel_drops_silently_witness :
    ((newComponent dropAllRules 5 "comp").appendHook
        (World.mk [[("job", "a")]]) 0 3 7 demoNext).1 = (0, none) ∧
    ((newComponent dropAllRules 5 "comp").appendHook
        (World.mk [[("job", "a")]]) 0 3 7 demoNext).2.1 = none :=
  (empty_relabel_drops_silently (newComponent dropAllRules 5 "comp")
    (World.mk [[("job", "a")]]) 0 3 7 1 2 4 demoNext rfl).1 (by decide)

/-- C6: regex-stage validation fails with `ErrExpressionRequired` when the
expression is absent, with `ErrCouldNotCompileRegex` wrapping the
compiler diagnostic when it does not compile, with
`ErrEmptyRegexStageSource` when the source is set but empty, and
succeeds for a valid expression with an unset or non-empty source. -/
theorem validateRegexConfig_taxonomy (compile : String → Except String CompiledRegex)
    (c : RegexConfig) :
    (c.expression = "" →
      validateRegexConfig compile c
        = Except.error RegexStageError.expressionRequired) ∧
    (∀ diag, ¬ c.expression = "" → compile c.expression = Except.error diag →
      validateRegexConfig compile c
        = Except.error (RegexStageError.couldNotCompileRegex diag)) ∧
    (∀ re, ¬ c.expression = "" → compile c.expression = Except.ok re →
      c.source = some "" →
      validateRegexConfig compile c
        = Except.error RegexStageError.emptyRegexStageSource) ∧
    (∀ re, ¬ c.expression = "" → compile c.expression = Except.ok re →
      ¬ c.source = some "" → validateRegexConfig compile c = Except.ok re) := by
  refine ⟨?_, ?_, ?_, ?_⟩
  · intro h
    simp [validateRegexConfig, h]
  · intro diag h hc
    simp [validateRegexConfig, h, hc]
  · intro re h hc hs
    simp [validateRegexConfig, h, hc, hs]
  · intro re h hc hs
    simp [validateRegexConfig, h, hc, hs]

/-- C6 witness: the three failures and a success, concretely. -/
theorem validateRegexConfig_taxonomy_witness :
    validateRegexConfig demoCompile
      { expression := "", source := none, labelsFromGroups := false }
      = Except.error RegexStageError.expressionRequired :=
  (validateRegexConfig_taxonomy demoCompile
    { expression := "", source := none, labelsFromGroups := false }).1 rfl

/-- C7: an entry whose source key is missing, whose source value is not a
string (a debug message is logged), or whose regex does not match passes
through the regex stage with extracted map and labels unchanged. -/
theorem regex_stage_pass_through (re : CompiledRegex) (c : RegexConfig) (e : Entry) :
    (∀ k, c.source = some k → lookupKV e.extracted k = none →
      regexProcess re c e = (e, some missingSourceMsg)) ∧
    (∀ k v, c.source = some k → lookupKV e.extracted k = some v →
      toStringVal v = none →
      regexProcess re c e = (e, some convertErrMsg)) ∧
    (∀ s, sourceString c e = some s → re.matchGroups s = none →
      (regexProcess re c e).1 = e) := by
  refine ⟨?_, ?_, ?_⟩
  · intro k hsrc hlk
    simp [regexProcess, hsrc, hlk]
  · intro k v hsrc hlk htv
    simp [regexProcess, hsrc, hlk, htv]
  · intro s hs hmatch
    rw [regexProcess_of_sourceString hs]
    simp [applyGroups, hmatch]

/-- C7 witness: a null source value passes through and logs the
conversion debug message. -/
theorem regex_stage_pass_through_witness :
    regexProcess demoRegex
      { expression := "^(?", source := some "time", labelsFromGroups := false }
      { ts := 0, entryLabels := [], line := "line0",
        extracted := [("time", EVal.vnull)] }
      = ({ ts := 0, entryLabels := [], line := "line0",
           extracted := [("time", EVal.vnull)] }, some convertErrMsg) :=
  (regex_stage_pass_through demoRegex
    { expression := "^(?", source := some "time", labelsFromGroups := false }
    { ts := 0, entryLabels := [], line := "line0",
      extracted := [("time", EVal.vnull)] }).2.1 "time" EVal.vnull rfl rfl rfl

/-- C8: when the regex matches and `labels_from_groups` is set, every
named capture group ends up both in the output labels and in the
extracted map under its own name with the matched value, overwriting any
pre-existing same-named entry. -/
theorem regex_labels_from_groups_overwrite (re : CompiledRegex) (c : RegexConfig)
    (e : Entry) (s : String) (groups : List (String × String))
    (hlfg : c.labelsFromGroups = true) (hs : sourceString c e = some s)
    (hmatch : re.matchGroups s = some groups)
    (hnd : (groups.map Prod.fst).Nodup) :
    ∀ k v, (k, v) ∈ groups →
      lookupKV (regexProcess re c e).1.entryLabels k = some v ∧
      lookupKV (regexProcess re c e).1.extracted k = some (EVal.vstr v) := by
  intro k v hmem
  rw [regexProcess_of_sourceString hs]
  constructor
  · simp only [applyGroups, hmatch, hlfg, if_true]
    exact lookupKV_foldl_upsert_mem (fun x => x) groups k v e.entryLabels hnd hmem
  · simp only [applyGroups, hmatch]
    exact lookupKV_foldl_upsert_mem EVal.vstr groups k v e.extracted hnd hmem

/-- C8 witness: a matching entry whose pre-existing `ip` label is
overwritten by the capture group. -/
theorem regex_labels_from_groups_overwrite_witness :
    lookupKV (regexProcess demoRegex
      { expression := "e", source := none, labelsFromGroups := true }
      { ts := 0, entryLabels := [("ip", "old")], line := "line0",
        extracted := [] }).1.entryLabels "ip" = some "1.2.3.4" ∧
    lookupKV (regexProcess demoRegex
      { expression := "e", source := none, labelsFromGroups := true }
      { ts := 0, entryLabels := [("ip", "old")], line := "line0",
        extracted := [] }).1.extracted "ip" = some (EVal.vstr "1.2.3.4") :=
  regex_labels_from_groups_overwrite demoRegex
    { expression := "e", source := none, labelsFromGroups := true }
    { ts := 0, entryLabels := [("ip", "old")], line := "line0", extracted := [] }
    "line0" [("ip", "1.2.3.4"), ("user", "frank")] rfl rfl rfl (by decide)
    "ip" "1.2.3.4" (by decide)

/-- C9: every Info the provider returns — through `GetComponent` or
`ListComponents` — is the detail of a component node, and its References
and ReferencedBy lists name exactly the component-node endpoints of that
node's edges: edges to non-component nodes are skipped. -/
theorem provider_skips_non_component_nodes (g : Graph) (id : String) (info : Info)
    (h : Runtime.getComponent g id = Except.ok info ∨
      info ∈ Runtime.listComponents g) :
    ∃ cn, cn ∈ g.nodes ∧ isComponentNode cn = true ∧
      info = getComponentDetail g cn ∧ refsMatch g cn info := by
  rcases h with h | h
  · rw [Runtime.getComponent] at h
    cases hg : g.getByID id with
    | none =>
      simp only [hg] at h
      exact Except.noConfusion h
    | some node =>
      simp only [hg] at h
      by_cases hcomp : isComponentNode node = true
      · rw [if_pos hcomp] at h
        have hinfo : info = getComponentDetail g node := (Except.ok.inj h).symm
        exact ⟨node, List.mem_of_find?_eq_some hg, hcomp, hinfo,
          hinfo.symm ▸ refsMatch_detail g node⟩
      · rw [if_neg hcomp] at h
        exact Except.noConfusion h
  · rw [Runtime.listComponents] at h
    obtain ⟨cn, hcn, hinfo⟩ := List.mem_map.mp h
    obtain ⟨hmem, hcomp⟩ := List.mem_filter.mp hcn
    exact ⟨cn, hmem, hcomp, hinfo.symm, hinfo ▸ refsMatch_detail g cn⟩

/-- C9 witness: on a graph with a config-block node `b`, component `a`'s
references skip `b` and keep component `c`. -/
theorem provider_skips_non_component_nodes_witness :
    ∃ cn, cn ∈ demoGraph.nodes ∧ isComponentNode cn = true ∧
      getComponentDetail demoGraph ⟨"a", NodeKind.componentNode⟩
        = getComponentDetail demoGraph cn ∧
      refsMatch demoGraph cn
        (getComponentDetail demoGraph ⟨"a", NodeKind.componentNode⟩) :=
  provider_skips_non_component_nodes demoGraph "a"
    (getComponentDetail demoGraph ⟨"a", NodeKind.componentNode⟩) (Or.inl rfl)

/-- C10: once `Run` has returned, every hook point refuses the append
with an error naming the component as exited, forwards nothing, and
leaves the state untouched (so all later appends refuse too). -/
theorem exited_component_rejects_appends (c : Component) (w : World) (i : Nat)
    (t : Int) (v : FVal) (e m hg : Nat) (next : NextAppender) :
    c.run.appendHook w i t v next
      = ((0, some (c.id ++ " has exited")), none, c.run, w) ∧
    c.run.exemplarHook w i e next
      = ((0, some (c.id ++ " has exited")), none, c.run, w) ∧
    c.run.metadataHook w i m next
      = ((0, some (c.id ++ " has exited")), none, c.run, w) ∧
    c.run.histogramHook w i t hg next
      = ((0, some (c.id ++ " has exited")), none, c.run, w) := by
  refine ⟨?_, ?_, ?_, ?_⟩ <;>
    simp [Component.run, Component.appendHook, Component.exemplarHook,
      Component.metadataHook, Component.histogramHook]

end Alloy
